import Mathlib

/-
Shallow embedding of the core of `dumpster`, a cycle-tracking garbage
collector for reference-counted smart pointers, translated from
`src/dumpster/src/unsync/collect.rs` and `src/dumpster/src/impls.rs`.

Data model:
* An allocation id is a `Nat` (standing for the address of the
  reference-count field, `AllocationId(NonNull<Cell<usize>>)`).
* A managed box (`GcBox<T>`) is its `ref_count` together with the list of
  `Gc` pointers directly held by its payload.  A field holds
  `some c` when the `Gc` points at allocation `c` and `none` when the
  `Gc`'s internal pointer has been nulled by the collector.
* The heap is an association list from ids to boxes; Rust's `HashMap` and
  `HashSet` iteration order is arbitrary, so every theorem quantifies over
  the list order.
* Recursive traversals take an explicit fuel argument and recurse
  structurally on it; the Rust code needs no fuel because its visited sets
  bound the recursion, and the fuel-adequacy side conditions in the
  theorems correspond to that bound.
-/

/-- Value of `usize::MAX` on the 64-bit targets the crate runs on;
`NonZeroUsize::saturating_add` saturates here. -/
def usizeMax : Nat := 2 ^ 64 - 1

/-- One managed allocation: the `ref_count` field of `GcBox<T>` and the
managed pointers (`Gc`s) directly held by its payload, in the order the
payload's `Collectable` implementation reports them. -/
structure GcBox where
  ref_count : Nat
  fields : List (Option Nat)
deriving Repr, DecidableEq

/-- Heap of managed allocations, keyed by allocation id. -/
abbrev Heap := List (Nat × GcBox)

/-- Lookup of an allocation by id (first match). -/
def hfind : Heap → Nat → Option GcBox
  | [], _ => none
  | (j, b) :: rest, i => if j = i then some b else hfind rest i

/-- Update of the box stored at an id, leaving the rest of the heap alone. -/
def hmod : Heap → Nat → (GcBox → GcBox) → Heap
  | [], _, _ => []
  | (j, b) :: rest, i, f => if j = i then (j, f b) :: rest else (j, b) :: hmod rest i f

/-- Managed pointers directly held by the payload of allocation `i`. -/
def fieldsOf (h : Heap) (i : Nat) : List (Option Nat) :=
  (hfind h i).elim [] GcBox.fields

/-- Current reference count of allocation `i` (reading `id.0.as_ref().get()`). -/
def refCountOf (h : Heap) (i : Nat) : Nat :=
  (hfind h i).elim 0 GcBox.ref_count

/-- Ids of the allocations present in the heap. -/
def domainIds (h : Heap) : List Nat :=
  h.map Prod.fst

/-- Models `ref_count.set v` on the box of allocation `i`. -/
def setRefCount (h : Heap) (i v : Nat) : Heap :=
  hmod h i (fun b => { b with ref_count := v })

/-- Models `gc.ptr = None` on field `idx` of the payload of allocation `i`. -/
def setFieldNone (h : Heap) (i idx : Nat) : Heap :=
  hmod h i (fun b => { b with fields := b.fields.set idx none })

/-- Reads field `idx` of the payload of allocation `i`; `none` when `i` is
dead or the payload has fewer managed pointers. -/
def fieldAt (h : Heap) (i idx : Nat) : Option (Option Nat) :=
  (hfind h i).bind (fun b => b.fields.get? idx)

/-- Models `HashSet::insert`: returns the new set and whether the value was
newly inserted. -/
def insertId (s : List Nat) (i : Nat) : List Nat × Bool :=
  if i ∈ s then (s, false) else (i :: s, true)

/-- Lookup in the `ref_state` map (`HashMap<AllocationId, NonZeroUsize>`). -/
def lookupRef : List (Nat × Nat) → Nat → Option Nat
  | [], _ => none
  | (k, n) :: rest, i => if k = i then some n else lookupRef rest i

/-- Models the `ref_state.entry(next_id)` update of `BuildRefGraph::visit_unsync`:
an occupied entry is bumped with `NonZeroUsize::saturating_add(1)`, a vacant
entry is inserted with `NonZeroUsize::MIN` (that is, 1). -/
def bumpRef : List (Nat × Nat) → Nat → List (Nat × Nat)
  | [], c => [(c, 1)]
  | (k, n) :: rest, c =>
      if k = c then (k, min (n + 1) usizeMax) :: rest else (k, n) :: bumpRef rest c

/-- State of the Pass 1 visitor `BuildRefGraph`. -/
structure BuildRefGraph where
  visited : List Nat
  ref_state : List (Nat × Nat)
deriving Repr, DecidableEq

/-- Models `BuildRefGraph::visit_unsync` on a non-null `Gc` pointing at `c`:
bump `ref_state[c]`, then recurse into `c`'s payload via `accept` iff `c`
was newly inserted into `visited`. -/
def bvisit : Nat → Heap → BuildRefGraph → Nat → BuildRefGraph
  | 0, _, st, _ => st
  | fuel + 1, h, st, c =>
      let rs := bumpRef st.ref_state c
      match insertId st.visited c with
      | (v, true) =>
          (fieldsOf h c).foldl
            (fun acc gcf =>
              match gcf with
              | none => acc
              | some c2 => bvisit fuel h acc c2)
            ⟨v, rs⟩
      | (v, false) => ⟨v, rs⟩

/-- Models `value.accept(visitor)` for Pass 1: the payload shows the visitor
each of its managed pointers in turn. -/
def baccept (fuel : Nat) (h : Heap) (st : BuildRefGraph) (fs : List (Option Nat)) :
    BuildRefGraph :=
  fs.foldl
    (fun acc gcf =>
      match gcf with
      | none => acc
      | some c2 => bvisit fuel h acc c2)
    st

/-- Pass 1 of `Dumpster::collect_all`: iterate the registry and, for each
entry not yet visited, insert it into `visited` and run its
`build_graph_fn` (which is `accept` on the payload). -/
def buildPass (fuel : Nat) (h : Heap) (reg : List Nat) : BuildRefGraph :=
  reg.foldl
    (fun acc k =>
      if k ∈ acc.visited then acc
      else baccept fuel h ⟨k :: acc.visited, acc.ref_state⟩ (fieldsOf h k))
    ⟨[], []⟩

/-- Models `Sweep::visit_unsync`: mark the id and recurse via `accept` on
first visit. -/
def svisit : Nat → Heap → List Nat → Nat → List Nat
  | 0, _, vs, _ => vs
  | fuel + 1, h, vs, c =>
      match insertId vs c with
      | (v, true) =>
          (fieldsOf h c).foldl
            (fun acc gcf =>
              match gcf with
              | none => acc
              | some c2 => svisit fuel h acc c2)
            v
      | (v, false) => v

/-- Models `value.accept(visitor)` for Pass 2. -/
def saccept (fuel : Nat) (h : Heap) (vs : List Nat) (fs : List (Option Nat)) :
    List Nat :=
  fs.foldl
    (fun acc gcf =>
      match gcf with
      | none => acc
      | some c2 => svisit fuel h acc c2)
    vs

/-- Root classification of Pass 2: an id with no `ref_state` entry is a
root; otherwise it is a root iff its current reference count differs from
the discovered inbound count. -/
def isRoot (h : Heap) (rs : List (Nat × Nat)) (i : Nat) : Bool :=
  match lookupRef rs i with
  | none => true
  | some n => refCountOf h i != n

/-- Pass 2 of `Dumpster::collect_all`, exactly as written in the source:
`if is_root && !sweep.visited.insert(*id) { (v.sweep_fn)(v.ptr, &mut sweep) }`.
The insertion into `sweep.visited` happens for every root, but `sweep_fn`
runs only when the insertion reports the id as already present. -/
def sweepPass (fuel : Nat) (h : Heap) (reg : List Nat) (rs : List (Nat × Nat)) :
    List Nat :=
  reg.foldl
    (fun vs i =>
      if isRoot h rs i then
        match insertId vs i with
        | (v, true) => v
        | (v, false) => saccept fuel h v (fieldsOf h i)
      else vs)
    []

/-- Type-erased pointer pushed on the collection queue: either the pointer
to the whole `GcBox` allocation or the pointer to its `ref_count` field
(the allocation id). -/
inductive Ptr where
  | boxPtr (i : Nat)
  | countPtr (i : Nat)
deriving Repr, DecidableEq

/-- Layout pushed on the collection queue: either the layout of the whole
`GcBox` (`Layout::for_value(p.as_ref())`) or the layout of the payload
value alone (`Layout::for_value(&specific_ptr.as_ref().value)`). -/
inductive Lay where
  | boxLayout (i : Nat)
  | valueLayout (i : Nat)
deriving Repr, DecidableEq

/-- Allocation id a queued pointer refers to. -/
def ptrId : Ptr → Nat
  | .boxPtr i => i
  | .countPtr i => i

/-- Observable events of Pass 3, in execution order. -/
inductive Ev where
  | forceZero (i : Nat)
  | nullGc (c : Nat)
  | destruct (i : Nat)
  | dealloc (p : Ptr) (l : Lay)
deriving Repr, DecidableEq

/-- State of the Pass 3 destroyer `DestroyGcs`. -/
structure DestroyGcs where
  visited : List Nat
  collection_queue : List (Ptr × Lay)
  reachable : List Nat
deriving Repr, DecidableEq

/-- The pair pushed on `collection_queue` for allocation `i`: the top-level
`destroy_gcs` pushes the box pointer with the layout of the payload value,
while `DestroyGcs::visit_unsync` pushes the id (count-field) pointer with
the layout of the whole box. -/
def pushedPair (i : Nat) (top : Bool) : Ptr × Lay :=
  if top then (Ptr.boxPtr i, Lay.valueLayout i) else (Ptr.countPtr i, Lay.boxLayout i)

/-- Destruction of one allocation, shared body of `destroy_gcs::<T>` and of
the recursive branch of `DestroyGcs::visit_unsync` (they differ only in the
queued pair, selected by `top`): force the reference count to zero, run
`destroy_gcs` on the payload (nulling each child pointer and recursing into
children that are neither reachable nor already visited), push the
pointer/layout pair, and finally drop the payload in place. -/
def destroyBox : Nat → Heap → DestroyGcs → Nat → Bool → Heap × DestroyGcs × List Ev
  | 0, h, d, _, _ => (h, d, [])
  | fuel + 1, h, d, i, top =>
      let h1 := setRefCount h i 0
      let r :=
        (List.range (fieldsOf h1 i).length).foldl
          (fun (acc : Heap × DestroyGcs × List Ev) idx =>
            let ha := acc.1
            let da := acc.2.1
            let ea := acc.2.2
            match fieldAt ha i idx with
            | some (some c) =>
                let hb := setFieldNone ha i idx
                if c ∈ da.reachable then (hb, da, ea ++ [Ev.nullGc c])
                else
                  match insertId da.visited c with
                  | (v, true) =>
                      let rc := destroyBox fuel hb { da with visited := v } c false
                      (rc.1, rc.2.1, ea ++ Ev.nullGc c :: rc.2.2)
                  | (v, false) => (hb, { da with visited := v }, ea ++ [Ev.nullGc c])
            | _ => acc)
          (h1, d, [])
      (r.1,
       { r.2.1 with collection_queue := r.2.1.collection_queue ++ [pushedPair i top] },
       Ev.forceZero i :: r.2.2 ++ [Ev.destruct i])

/-- Models `DestroyGcs::visit_unsync` on the `Gc` stored at field `idx` of
allocation `p`: a null `Gc` is skipped entirely; otherwise the pointer is
nulled first, and the pointee is destroyed only if it is not reachable and
newly inserted into `visited`. -/
def dvisitField (fuel : Nat) (h : Heap) (d : DestroyGcs) (p idx : Nat) :
    Heap × DestroyGcs × List Ev :=
  match fieldAt h p idx with
  | some (some c) =>
      let hb := setFieldNone h p idx
      if c ∈ d.reachable then (hb, d, [Ev.nullGc c])
      else
        match insertId d.visited c with
        | (v, true) =>
            let rc := destroyBox fuel hb { d with visited := v } c false
            (rc.1, rc.2.1, Ev.nullGc c :: rc.2.2)
        | (v, false) => (hb, { d with visited := v }, [Ev.nullGc c])
  | _ => (h, d, [])

/-- Models `value.destroy_gcs(destroyer)`: the payload shows the destroyer
each of its managed pointers (by mutable reference) in turn. -/
def destroyFields (fuel : Nat) (h : Heap) (d : DestroyGcs) (i : Nat) :
    Heap × DestroyGcs × List Ev :=
  (List.range (fieldsOf h i).length).foldl
    (fun (acc : Heap × DestroyGcs × List Ev) idx =>
      let ha := acc.1
      let da := acc.2.1
      let ea := acc.2.2
      match fieldAt ha i idx with
      | some (some c) =>
          let hb := setFieldNone ha i idx
          if c ∈ da.reachable then (hb, da, ea ++ [Ev.nullGc c])
          else
            match insertId da.visited c with
            | (v, true) =>
                let rc := destroyBox fuel hb { da with visited := v } c false
                (rc.1, rc.2.1, ea ++ Ev.nullGc c :: rc.2.2)
            | (v, false) => (hb, { da with visited := v }, ea ++ [Ev.nullGc c])
      | _ => acc)
    (h, d, [])

/-- Pass 3 of `Dumpster::collect_all`: drain the registry and destroy every
entry that is not reachable and not yet visited. -/
def drainPass (fuel : Nat) (h : Heap) (reg : List Nat) (reachable : List Nat) :
    Heap × DestroyGcs × List Ev :=
  reg.foldl
    (fun (acc : Heap × DestroyGcs × List Ev) i =>
      let ha := acc.1
      let da := acc.2.1
      let ea := acc.2.2
      if i ∈ da.reachable then acc
      else
        match insertId da.visited i with
        | (v, true) =>
            let rb := destroyBox fuel ha { da with visited := v } i true
            (rb.1, rb.2.1, ea ++ rb.2.2)
        | (v, false) => (ha, { da with visited := v }, ea))
    (h, ⟨[], [], reachable⟩, [])

/-- The thread-local `Dumpster`: the registry of possibly-dead allocations
and the two trigger counters. -/
structure Dumpster where
  to_collect : List Nat
  n_ref_drops : Nat
  n_refs_living : Nat
deriving Repr, DecidableEq

/-- Result of a call to `collect_all`. -/
structure CollectOutcome where
  heap : Heap
  dump : Dumpster
  queue : List (Ptr × Lay)
  events : List Ev
deriving Repr, DecidableEq

/-- Models `Dumpster::collect_all`: reset `n_ref_drops`, build the
reference graph from the registry, sweep from the roots, drain the registry
destroying everything unreachable, and deallocate every queued entry last. -/
def collectAll (fuel : Nat) (h : Heap) (d : Dumpster) : CollectOutcome :=
  let brg := buildPass fuel h d.to_collect
  let reachable := sweepPass fuel h d.to_collect brg.ref_state
  let r := drainPass fuel h d.to_collect reachable
  { heap := r.1
    dump := { d with to_collect := [], n_ref_drops := 0 }
    queue := r.2.1.collection_queue
    events := r.2.2 ++ r.2.1.collection_queue.map (fun pl => Ev.dealloc pl.1 pl.2) }

/-- Number of inbound managed-pointer edges of allocation `c` in the heap. -/
def indegree (h : Heap) (c : Nat) : Nat :=
  (h.map (fun p => p.2.fields.count (some c))).sum

/-- Fueled reachability along managed-pointer edges (used to state strong
connectivity of a component). -/
def reachesIn : Nat → Heap → Nat → Nat → Bool
  | 0, _, a, b => a == b
  | fuel + 1, h, a, b =>
      a == b ||
        (fieldsOf h a).any
          (fun gcf =>
            match gcf with
            | none => false
            | some c => reachesIn fuel h c b)

/-- Visitor state threaded through the `Collectable` trait of `impls.rs`.
Modelled from the spec: the `RefGraph` type itself lives in the crate root,
which is not under `src/`; per the spec a visitor records the managed
pointers it is shown, so the state carries the list of visited ids. -/
structure RefGraph where
  visitLog : List Nat
deriving Repr, DecidableEq

/-- Bundled `Collectable` implementation for a payload type `α` in the
`impls.rs` API: `add_to_ref_graph`, `sweep` (with its accessibility flag)
and `destroy_gcs` (which receives the value by mutable reference). -/
structure CollectableImpl (α : Type) where
  add_to_ref_graph : α → RefGraph → RefGraph
  sweep : α → Bool → RefGraph → RefGraph
  destroy_gcs : α → RefGraph → α × RefGraph

/-- Implementation of `Collectable for &'a T` from `impls.rs`: all three
method bodies are empty. -/
def borrowedRefImpl (α : Type) : CollectableImpl α :=
  { add_to_ref_graph := fun _ g => g
    sweep := fun _ _ g => g
    destroy_gcs := fun x g => (x, g) }

/-- Implementation produced by the `collectable_trivial_impl!` macro of
`impls.rs`, instantiated at `()`, the unsigned and signed integer
primitives, `f32`, `f64` and `AtomicUsize`: all three method bodies are
empty. -/
def trivialImpl (α : Type) : CollectableImpl α :=
  { add_to_ref_graph := fun _ g => g
    sweep := fun _ _ g => g
    destroy_gcs := fun x g => (x, g) }

/-- One step of the `destroy_gcs` field loop, as inlined in `destroyBox`
and `destroyFields`: apply `DestroyGcs::visit_unsync` to field `idx` of
allocation `i` and append the produced events. -/
def dstep (fuel i : Nat) (acc : Heap × DestroyGcs × List Ev) (idx : Nat) :
    Heap × DestroyGcs × List Ev :=
  let ha := acc.1
  let da := acc.2.1
  let ea := acc.2.2
  match fieldAt ha i idx with
  | some (some c) =>
      let hb := setFieldNone ha i idx
      if c ∈ da.reachable then (hb, da, ea ++ [Ev.nullGc c])
      else
        match insertId da.visited c with
        | (v, true) =>
            let rc := destroyBox fuel hb { da with visited := v } c false
            (rc.1, rc.2.1, ea ++ Ev.nullGc c :: rc.2.2)
        | (v, false) => (hb, { da with visited := v }, ea ++ [Ev.nullGc c])
  | _ => acc

/-- Boolean well-formedness of a heap: every managed pointer held by a
payload targets an id in `dom`. -/
def wfHeapB (h : Heap) (dom : List Nat) : Bool :=
  h.all fun p =>
    p.2.fields.all fun gcf =>
      match gcf with
      | none => true
      | some c => dom.contains c

/-- Number of ids in `dom` not yet in the visited set `v`; the fuel of a
traversal must exceed it for the traversal to run to completion. -/
def unvis (dom v : List Nat) : Nat :=
  dom.countP fun x => decide (x ∉ v)

/-- Fold of a list of bump operations over a `ref_state` map. -/
def applyBumps (bs : List Nat) (rs : List (Nat × Nat)) : List (Nat × Nat) :=
  bs.foldl bumpRef rs

/-- Scenario S4 of the spec: allocations 1 and 2 form a two-cycle, and
allocation 1 additionally holds one live external reference (its count is
2 while only one inbound edge is internal).  Only allocation 2 is in the
registry, because only its external handle was dropped. -/
def anchoredCycleHeap : Heap := [(1, ⟨2, [some 2]⟩), (2, ⟨1, [some 1]⟩)]

/-- Heap with a root: allocation 1 has an external reference (count 2,
discovered inbound 1) and points at allocation 2; both are registered. -/
def rootChildHeap : Heap := [(1, ⟨2, [some 2]⟩), (2, ⟨1, []⟩)]

/-- Fully registered two-cycle with no external references. -/
def deadCycleHeap : Heap := [(1, ⟨1, [some 2]⟩), (2, ⟨1, [some 1]⟩)]

/-- Fully registered two-cycle used to instantiate the cycle-reclamation
theorem. -/
def sccWitnessHeap : Heap := [(5, ⟨1, [some 7]⟩), (7, ⟨1, [some 5]⟩)]

/-- Recognizer for deallocation events. -/
def isDealloc : Ev → Bool
  | .dealloc _ _ => true
  | _ => false

/-- One step of the Pass 3 drain loop, as inlined in `drainPass`. -/
def dtop (fuel : Nat) (acc : Heap × DestroyGcs × List Ev) (i : Nat) :
    Heap × DestroyGcs × List Ev :=
  let ha := acc.1
  let da := acc.2.1
  let ea := acc.2.2
  if i ∈ da.reachable then acc
  else
    match insertId da.visited i with
    | (v, true) =>
        let rb := destroyBox fuel ha { da with visited := v } i true
        (rb.1, rb.2.1, ea ++ rb.2.2)
    | (v, false) => (ha, { da with visited := v }, ea)


/-- One step of the Pass 1 registry loop, as inlined in `buildPass`. -/
def bstep (fuel : Nat) (h : Heap) (acc : BuildRefGraph) (k : Nat) : BuildRefGraph :=
  if k ∈ acc.visited then acc
  else baccept fuel h ⟨k :: acc.visited, acc.ref_state⟩ (fieldsOf h k)

/-- One step of the Pass 2 registry loop, as inlined in `sweepPass`. -/
def sstep (fuel : Nat) (h : Heap) (rs : List (Nat × Nat)) (vs : List Nat)
    (i : Nat) : List Nat :=
  if isRoot h rs i then
    match insertId vs i with
    | (v, true) => v
    | (v, false) => saccept fuel h v (fieldsOf h i)
  else vs

/-- Postcondition of a Pass 1 traversal step from state `st` to `st'`: the
newly visited ids `acc` are fresh, lie in `dom` and have all their children
visited afterwards, every seed id is visited afterwards, and the
`ref_state` has received exactly one bump per seed id plus one bump per
managed-pointer edge out of a newly visited id. -/
def BuildPost (h : Heap) (dom : List Nat) (st st' : BuildRefGraph)
    (seed : List Nat) : Prop :=
  ∃ acc bs : List Nat,
    st'.visited = acc ++ st.visited ∧
    acc.Nodup ∧
    (∀ x ∈ acc, x ∉ st.visited ∧ x ∈ dom) ∧
    (∀ a ∈ acc, ∀ x : Nat, some x ∈ fieldsOf h a → x ∈ st'.visited) ∧
    (∀ x ∈ seed, x ∈ st'.visited) ∧
    st'.ref_state = applyBumps bs st.ref_state ∧
    (∀ x : Nat,
      bs.count x = seed.count x + (acc.map fun a => (fieldsOf h a).count (some x)).sum)

/-- Postcondition of a Pass 3 destruction step from destroyer state `d` to
`d'`: the newly visited ids `acc` are fresh and lie in `dom`, the
reachable set is untouched, and the destruct events of the step and the
ids of its queued pairs each count the ids `self ++ acc` exactly. -/
def DestroyPost (dom : List Nat) (d d' : DestroyGcs) (evs : List Ev)
    (self : List Nat) : Prop :=
  ∃ acc : List Nat,
    d'.visited = acc ++ d.visited ∧
    acc.Nodup ∧
    (∀ x ∈ acc, x ∉ d.visited ∧ x ∈ dom) ∧
    d'.reachable = d.reachable ∧
    (∀ x : Nat, evs.count (Ev.destruct x) = (self ++ acc).count x) ∧
    ∃ qs : List (Ptr × Lay),
      d'.collection_queue = d.collection_queue ++ qs ∧
      (∀ x : Nat, (qs.map fun e => ptrId e.1).count x = (self ++ acc).count x)

theorem lookupRef_bumpRef_self (rs : List (Nat × Nat)) (c : Nat) :
    lookupRef (bumpRef rs c) c =
      some (match lookupRef rs c with
            | none => 1
            | some n => min (n + 1) usizeMax) := by
  induction rs with
  | nil => simp [bumpRef, lookupRef]
  | cons p rest ih =>
    obtain ⟨k, n⟩ := p
    by_cases hk : k = c
    · subst hk; simp [bumpRef, lookupRef]
    · simp [bumpRef, lookupRef, hk, ih]

theorem lookupRef_bumpRef_ne (rs : List (Nat × Nat)) (c x : Nat) (hx : x ≠ c) :
    lookupRef (bumpRef rs c) x = lookupRef rs x := by
  induction rs with
  | nil =>
    have : ¬c = x := fun h => hx h.symm
    simp [bumpRef, lookupRef, this]
  | cons p rest ih =>
    obtain ⟨k, n⟩ := p
    by_cases hk : k = c
    · subst hk
      have : ¬k = x := fun h => hx h.symm
      simp [bumpRef, lookupRef, this]
    · by_cases hkx : k = x
      · subst hkx; simp [bumpRef, lookupRef, hk]
      · simp [bumpRef, lookupRef, hk, hkx, ih]

theorem destroyFields_eq_foldl_dstep (fuel : Nat) (h : Heap) (d : DestroyGcs) (i : Nat) :
    destroyFields fuel h d i =
      (List.range (fieldsOf h i).length).foldl (dstep fuel i) (h, d, []) := rfl

theorem destroyBox_succ (fuel : Nat) (h : Heap) (d : DestroyGcs) (i : Nat) (top : Bool) :
    destroyBox (fuel + 1) h d i top =
      (let r := destroyFields fuel (setRefCount h i 0) d i
       (r.1,
        { r.2.1 with collection_queue := r.2.1.collection_queue ++ [pushedPair i top] },
        Ev.forceZero i :: r.2.2 ++ [Ev.destruct i])) := rfl

theorem dstep_eq_dvisitField (fuel i : Nat) (acc : Heap × DestroyGcs × List Ev) (idx : Nat) :
    dstep fuel i acc idx =
      (let r := dvisitField fuel acc.1 acc.2.1 i idx
       (r.1, r.2.1, acc.2.2 ++ r.2.2)) := by
  unfold dstep dvisitField
  cases hf : fieldAt acc.1 i idx with
  | none => simp [hf]
  | some gcf =>
    cases gcf with
    | none => simp [hf]
    | some c =>
      by_cases hr : c ∈ acc.2.1.reachable
      · simp only [hf, if_pos hr]
      · cases hins : insertId acc.2.1.visited c with
        | mk v isNew =>
          cases isNew <;> simp only [hf, if_neg hr, hins]

theorem drainPass_eq_foldl_dtop (fuel : Nat) (h : Heap) (reg reach : List Nat) :
    drainPass fuel h reg reach = reg.foldl (dtop fuel) (h, ⟨[], [], reach⟩, []) := rfl

theorem dvisitField_no_dealloc (f : Nat)
    (IH : ∀ h d c top, ∀ e ∈ (destroyBox f h d c top).2.2, isDealloc e = false)
    (h : Heap) (d : DestroyGcs) (p idx : Nat) :
    ∀ e ∈ (dvisitField f h d p idx).2.2, isDealloc e = false := by
  intro e he
  unfold dvisitField at he
  split at he
  case h_1 c heq =>
    split at he
    · simp at he
      subst he; rfl
    · split at he
      case h_1 v hv =>
        simp only [List.mem_cons] at he
        rcases he with rfl | he
        · rfl
        · exact IH _ _ _ _ e he
      case h_2 v hv =>
        simp at he
        subst he; rfl
  case h_2 =>
    simp at he

theorem dstep_fold_no_dealloc (f i : Nat)
    (IH : ∀ h d c top, ∀ e ∈ (destroyBox f h d c top).2.2, isDealloc e = false) :
    ∀ (l : List Nat) (acc : Heap × DestroyGcs × List Ev),
      (∀ e ∈ acc.2.2, isDealloc e = false) →
      ∀ e ∈ (l.foldl (dstep f i) acc).2.2, isDealloc e = false := by
  intro l
  induction l with
  | nil => intro acc hacc e he; exact hacc e he
  | cons idx rest ihl =>
    intro acc hacc e he
    refine ihl (dstep f i acc idx) ?_ e he
    intro e' he'
    rw [dstep_eq_dvisitField] at he'
    simp only [List.mem_append] at he'
    rcases he' with he' | he'
    · exact hacc e' he'
    · exact dvisitField_no_dealloc f IH acc.1 acc.2.1 i idx e' he'

theorem destroyBox_no_dealloc :
    ∀ fuel h d i top, ∀ e ∈ (destroyBox fuel h d i top).2.2, isDealloc e = false := by
  intro fuel
  induction fuel with
  | zero => intro h d i top e he; simp [destroyBox] at he
  | succ f ih =>
    intro h d i top e he
    rw [destroyBox_succ] at he
    simp only [List.mem_cons, List.mem_append, List.mem_singleton] at he
    rcases he with (rfl | he) | (rfl | h0)
    · rfl
    · rw [destroyFields_eq_foldl_dstep] at he
      exact dstep_fold_no_dealloc f i ih _ _ (by intro e' he'; simp at he') e he
    · rfl
    · simp at h0

theorem drainPass_no_dealloc (fuel : Nat) (h : Heap) (reg reach : List Nat) :
    ∀ e ∈ (drainPass fuel h reg reach).2.2, isDealloc e = false := by
  rw [drainPass_eq_foldl_dtop]
  have aux : ∀ (l : List Nat) (acc : Heap × DestroyGcs × List Ev),
      (∀ e ∈ acc.2.2, isDealloc e = false) →
      ∀ e ∈ (l.foldl (dtop fuel) acc).2.2, isDealloc e = false := by
    intro l
    induction l with
    | nil => intro acc hacc e he; exact hacc e he
    | cons i rest ihl =>
      intro acc hacc e he
      refine ihl (dtop fuel acc i) ?_ e he
      intro e' he'
      unfold dtop at he'
      dsimp only at he'
      split at he'
      · exact hacc e' he'
      · split at he'
        case h_1 v hv =>
          simp only [List.mem_append] at he'
          rcases he' with he' | he'
          · exact hacc e' he'
          · exact destroyBox_no_dealloc fuel _ _ _ _ e' he'
        case h_2 v hv => exact hacc e' he'
  exact aux reg _ (by intro e he; simp at he)

/-- C9: the `Collectable` implementations of `impls.rs` for borrowed
references and for the trivial leaf types (unit, the integer and float
primitives, `AtomicUsize`) are no-ops for all three operations: for every
value and every visitor state they leave the visitor state unchanged
(hence record no visit) and return the value unchanged. -/
theorem claim_C9_trivial_impls_are_noops :
    ∀ (α : Type) (x : α) (g : RefGraph) (b : Bool),
      (trivialImpl α).add_to_ref_graph x g = g ∧
      (trivialImpl α).sweep x b g = g ∧
      (trivialImpl α).destroy_gcs x g = (x, g) ∧
      (borrowedRefImpl α).add_to_ref_graph x g = g ∧
      (borrowedRefImpl α).sweep x b g = g ∧
      (borrowedRefImpl α).destroy_gcs x g = (x, g) ∧
      ((trivialImpl α).add_to_ref_graph x g).visitLog = g.visitLog ∧
      ((borrowedRefImpl α).add_to_ref_graph x g).visitLog = g.visitLog := by
  intro α x g b
  exact ⟨rfl, rfl, rfl, rfl, rfl, rfl, rfl, rfl⟩

/-- C5: Pass 2 computes the root classification exactly as stated: an id
with no `ref_state` entry is a root; otherwise it is a root iff the actual
reference count differs from the discovered inbound count — in particular
an actual count strictly below the discovered count still yields a root. -/
theorem claim_C5_root_classification :
    (∀ h rs (i : Nat), lookupRef rs i = none → isRoot h rs i = true) ∧
    (∀ h rs (i n : Nat), lookupRef rs i = some n →
      (isRoot h rs i = true ↔ refCountOf h i ≠ n)) ∧
    (∀ h rs (i n : Nat), lookupRef rs i = some n → refCountOf h i < n →
      isRoot h rs i = true) := by
  refine ⟨?_, ?_, ?_⟩
  · intro h rs i hl; simp [isRoot, hl]
  · intro h rs i n hl; simp [isRoot, hl]
  · intro h rs i n hl hlt
    simp [isRoot, hl]
    omega

/-- Witness for C5 at a concrete input: id 3 has discovered count 5 but
actual count 0 (strictly smaller), and is classified a root. -/
theorem claim_C5_witness :
    lookupRef [(3, 5)] 3 = some 5 ∧ refCountOf [] 3 < 5 ∧
      isRoot [] [(3, 5)] 3 = true :=
  ⟨by decide, by decide,
   claim_C5_root_classification.2.2 [] [(3, 5)] 3 5 (by decide) (by decide)⟩

/-- C6: on every managed-pointer edge, Pass 1's visitor bumps
`ref_state[child]` — inserting the entry with value 1 when absent and
otherwise adding 1 with saturating arithmetic — and recurses into the
child via `accept` iff the child had not been visited before. -/
theorem claim_C6_build_graph_edge_step :
    (∀ fuel h st (c : Nat), c ∉ st.visited →
      bvisit (fuel + 1) h st c =
        baccept fuel h ⟨c :: st.visited, bumpRef st.ref_state c⟩ (fieldsOf h c)) ∧
    (∀ fuel h st (c : Nat), c ∈ st.visited →
      bvisit (fuel + 1) h st c = ⟨st.visited, bumpRef st.ref_state c⟩) ∧
    (∀ rs (c : Nat), lookupRef rs c = none →
      lookupRef (bumpRef rs c) c = some 1) ∧
    (∀ rs (c n : Nat), lookupRef rs c = some n →
      lookupRef (bumpRef rs c) c = some (min (n + 1) usizeMax)) ∧
    (∀ rs (c x : Nat), x ≠ c → lookupRef (bumpRef rs c) x = lookupRef rs x) := by
  refine ⟨?_, ?_, ?_, ?_, ?_⟩
  · intro fuel h st c hc
    simp [bvisit, insertId, hc, baccept]
  · intro fuel h st c hc
    simp [bvisit, insertId, hc]
  · intro rs c hl
    rw [lookupRef_bumpRef_self, hl]
  · intro rs c n hl
    rw [lookupRef_bumpRef_self, hl]
  · intro rs c x hx
    exact lookupRef_bumpRef_ne rs c x hx

/-- Witness for C6 at a concrete input: visiting the unvisited id 1 bumps
its absent entry to 1 and recurses via `accept`. -/
theorem claim_C6_witness :
    (1 ∉ (⟨[], []⟩ : BuildRefGraph).visited) ∧
      bvisit 1 [] ⟨[], []⟩ 1 =
        baccept 0 [] ⟨1 :: [], bumpRef [] 1⟩ (fieldsOf [] 1) ∧
      lookupRef [] 1 = none ∧ lookupRef (bumpRef [] 1) 1 = some 1 :=
  ⟨by decide,
   claim_C6_build_graph_edge_step.1 0 [] ⟨[], []⟩ 1 (by decide),
   by decide,
   claim_C6_build_graph_edge_step.2.2.1 [] 1 (by decide)⟩

/-- C10: the destroy visitor is a complete no-op on a smart pointer whose
internal pointer is already null — the heap, the visitor state (visited,
reachable, queue) and the event trace are unchanged and nothing is
destroyed — and on a non-null pointer to a reachable allocation it nulls
the pointer but destroys nothing and queues nothing. -/
theorem claim_C10_destroy_visitor_frame :
    (∀ fuel h d (p idx : Nat), fieldAt h p idx = some none →
      dvisitField fuel h d p idx = (h, d, [])) ∧
    (∀ fuel h d (p idx c : Nat), fieldAt h p idx = some (some c) →
      c ∈ d.reachable →
      dvisitField fuel h d p idx = (setFieldNone h p idx, d, [Ev.nullGc c])) := by
  constructor
  · intro fuel h d p idx hf
    simp [dvisitField, hf]
  · intro fuel h d p idx c hf hr
    simp [dvisitField, hf, hr]

/-- Witness for C10 at a concrete input: field 0 of allocation 1 is a
nulled pointer (no-op), field 1 points at the reachable allocation 2 (null
only). -/
theorem claim_C10_witness :
    fieldAt [(1, ⟨1, [none, some 2]⟩)] 1 0 = some none ∧
      dvisitField 4 [(1, ⟨1, [none, some 2]⟩)] ⟨[], [], [2]⟩ 1 0 =
        ([(1, ⟨1, [none, some 2]⟩)], ⟨[], [], [2]⟩, []) ∧
      fieldAt [(1, ⟨1, [none, some 2]⟩)] 1 1 = some (some 2) ∧
      dvisitField 4 [(1, ⟨1, [none, some 2]⟩)] ⟨[], [], [2]⟩ 1 1 =
        (setFieldNone [(1, ⟨1, [none, some 2]⟩)] 1 1, ⟨[], [], [2]⟩, [Ev.nullGc 2]) :=
  ⟨by decide,
   claim_C10_destroy_visitor_frame.1 4 [(1, ⟨1, [none, some 2]⟩)] ⟨[], [], [2]⟩ 1 0 (by decide),
   by decide,
   claim_C10_destroy_visitor_frame.2 4 [(1, ⟨1, [none, some 2]⟩)] ⟨[], [], [2]⟩ 1 1 2 (by decide)
     (by decide)⟩

/-- C8: `collect_all` leaves the registry empty, and a second call made
immediately after the first (same heap, same dumpster, no smart-pointer
operations in between) destroys no allocation and performs no
deallocations: it produces no events at all and an empty queue. -/
theorem claim_C8_collect_idempotent :
    ∀ fuel h d fuel2,
      (collectAll fuel h d).dump.to_collect = [] ∧
      (collectAll fuel2 (collectAll fuel h d).heap (collectAll fuel h d).dump).events = [] ∧
      (collectAll fuel2 (collectAll fuel h d).heap (collectAll fuel h d).dump).queue = [] := by
  intro fuel h d fuel2
  exact ⟨rfl, rfl, rfl⟩

/-- C7: per destroyed allocation the sub-steps execute strictly in the
order force-zero, null children (each child pointer nulled before any
recursion into that child, no recursion into a reachable child), then the
payload destructor in place; and every dealloc happens only after the
entire registry drain: the event trace is the drain trace — which contains
no dealloc event — followed by all dealloc events. -/
theorem claim_C7_destroy_ordering :
    (∀ fuel h d (i : Nat) (top : Bool),
      (destroyBox (fuel + 1) h d i top).2.2 =
        Ev.forceZero i ::
          (destroyFields fuel (setRefCount h i 0) d i).2.2 ++ [Ev.destruct i]) ∧
    (∀ fuel h d (p idx c : Nat), fieldAt h p idx = some (some c) →
      c ∉ d.reachable → c ∉ d.visited →
      dvisitField fuel h d p idx =
        (let rc := destroyBox fuel (setFieldNone h p idx)
            { d with visited := c :: d.visited } c false
         (rc.1, rc.2.1, Ev.nullGc c :: rc.2.2))) ∧
    (∀ fuel h d (p idx c : Nat), fieldAt h p idx = some (some c) →
      c ∈ d.reachable →
      dvisitField fuel h d p idx = (setFieldNone h p idx, d, [Ev.nullGc c])) ∧
    (∀ (fuel : Nat) (h : Heap) (d : Dumpster),
      (collectAll fuel h d).events =
        (drainPass fuel h d.to_collect
            (sweepPass fuel h d.to_collect (buildPass fuel h d.to_collect).ref_state)).2.2 ++
          (collectAll fuel h d).queue.map (fun pl => Ev.dealloc pl.1 pl.2)) ∧
    (∀ (fuel : Nat) (h : Heap) (d : Dumpster) (e : Ev),
      e ∈ (drainPass fuel h d.to_collect
            (sweepPass fuel h d.to_collect (buildPass fuel h d.to_collect).ref_state)).2.2 →
      isDealloc e = false) := by
  refine ⟨?_, ?_, ?_, ?_, ?_⟩
  · intro fuel h d i top
    rw [destroyBox_succ]
  · intro fuel h d p idx c hf hr hv
    simp [dvisitField, hf, hr, insertId, hv]
  · intro fuel h d p idx c hf hr
    simp [dvisitField, hf, hr]
  · intro fuel h d
    rfl
  · intro fuel h d e he
    exact drainPass_no_dealloc fuel h d.to_collect _ e he

/-- Witness for C7 at a concrete input: destroying allocation 1 of the
dead two-cycle nulls its pointer to 2 before recursively destroying 2. -/
theorem claim_C7_witness :
    fieldAt deadCycleHeap 1 0 = some (some 2) ∧
      (2 ∉ (⟨[1], [], []⟩ : DestroyGcs).reachable) ∧
      (2 ∉ (⟨[1], [], []⟩ : DestroyGcs).visited) ∧
      dvisitField 5 deadCycleHeap ⟨[1], [], []⟩ 1 0 =
        (let rc := destroyBox 5 (setFieldNone deadCycleHeap 1 0)
            ⟨2 :: [1], [], []⟩ 2 false
         (rc.1, rc.2.1, Ev.nullGc 2 :: rc.2.2)) :=
  ⟨by decide, by decide, by decide,
   claim_C7_destroy_ordering.2.1 5 deadCycleHeap ⟨[1], [], []⟩ 1 0 2 (by decide) (by decide)
     (by decide)⟩

/-- C1 (refuted by the code): scenario S4 — allocation 1 holds a live
external reference (actual count 2, internal indegree 1) and forms a
two-cycle with the registered allocation 2, yet `collect_all` destroys
both cycle members and queues both for deallocation. -/
theorem claim_C1_anchored_cycle_reclaimed :
    refCountOf anchoredCycleHeap 1 = 2 ∧
    indegree anchoredCycleHeap 1 = 1 ∧
    reachesIn 2 anchoredCycleHeap 1 2 = true ∧
    reachesIn 2 anchoredCycleHeap 2 1 = true ∧
    (collectAll 10 anchoredCycleHeap ⟨[2], 0, 3⟩).events.count (Ev.destruct 1) = 1 ∧
    (collectAll 10 anchoredCycleHeap ⟨[2], 0, 3⟩).events.count (Ev.destruct 2) = 1 ∧
    (collectAll 10 anchoredCycleHeap ⟨[2], 0, 3⟩).queue.map (fun e => ptrId e.1) = [1, 2] := by
  decide

/-- C2 (refuted by the code): allocation 1 is classified a root and
allocation 2 is reachable from it, but Pass 2 only inserts a fresh root
into `sweep.visited` (the source guards the traversal with
`is_root && !insert`), so the sweep traversal never runs, 2 is absent from
the reachable set, and 2 is destroyed by Pass 3. -/
theorem claim_C2_sweep_never_runs_from_fresh_root :
    isRoot rootChildHeap (buildPass 10 rootChildHeap [1, 2]).ref_state 1 = true ∧
    reachesIn 1 rootChildHeap 1 2 = true ∧
    sweepPass 10 rootChildHeap [1, 2] (buildPass 10 rootChildHeap [1, 2]).ref_state = [1] ∧
    (2 ∉ sweepPass 10 rootChildHeap [1, 2] (buildPass 10 rootChildHeap [1, 2]).ref_state) ∧
    (collectAll 10 rootChildHeap ⟨[1, 2], 0, 3⟩).events.count (Ev.destruct 2) = 1 := by
  decide

/-- C3 (refuted by the code): destroying the fully registered two-cycle
pushes, in the visitor branch, the pointer to the reference-count field
together with the layout of the whole box, and, in the top-level branch,
the box pointer together with the layout of the payload value alone —
neither branch pushes the box pointer with the layout of the whole box. -/
theorem claim_C3_queue_pointer_layout_mismatch :
    (collectAll 10 deadCycleHeap ⟨[1, 2], 0, 2⟩).queue =
      [(Ptr.countPtr 2, Lay.boxLayout 2), (Ptr.boxPtr 1, Lay.valueLayout 1)] := by
  decide

theorem hfind_mem {h : Heap} {i : Nat} {b : GcBox} (hf : hfind h i = some b) :
    (i, b) ∈ h := by
  induction h with
  | nil => simp [hfind] at hf
  | cons p rest ih =>
    obtain ⟨j, b'⟩ := p
    by_cases hj : j = i
    · subst hj
      simp [hfind] at hf
      subst hf
      exact List.mem_cons_self _ _
    · simp [hfind, hj] at hf
      exact List.mem_cons_of_mem _ (ih hf)

theorem wfHeapB_fields {h : Heap} {dom : List Nat} (hwf : wfHeapB h dom = true)
    {a x : Nat} (hx : some x ∈ fieldsOf h a) : x ∈ dom := by
  unfold fieldsOf at hx
  cases hf : hfind h a with
  | none => rw [hf] at hx; simp at hx
  | some b =>
    rw [hf] at hx
    simp only [Option.elim] at hx
    have hmem := hfind_mem hf
    unfold wfHeapB at hwf
    rw [List.all_eq_true] at hwf
    have h1 := hwf _ hmem
    rw [List.all_eq_true] at h1
    have h2 := h1 _ hx
    simpa using h2

theorem fieldAt_mem_fields {h : Heap} {p idx : Nat} {gcf : Option Nat}
    (hf : fieldAt h p idx = some gcf) : gcf ∈ fieldsOf h p := by
  unfold fieldAt at hf
  cases hfd : hfind h p with
  | none => rw [hfd] at hf; simp at hf
  | some b =>
    rw [hfd] at hf
    simp only [Option.bind] at hf
    unfold fieldsOf
    rw [hfd]
    exact List.get?_mem hf

theorem unvis_le_length (dom v : List Nat) : unvis dom v ≤ dom.length :=
  List.countP_le_length _

theorem unvis_mono {v w : List Nat} (dom : List Nat) (hsub : ∀ x ∈ v, x ∈ w) :
    unvis dom w ≤ unvis dom v := by
  refine List.countP_mono_left ?_
  intro a _ ha
  simp only [decide_eq_true_eq] at ha ⊢
  intro hav
  exact ha (hsub a hav)

theorem unvis_insert {dom v : List Nat} {c : Nat} (hnd : dom.Nodup)
    (hc : c ∈ dom) (hv : c ∉ v) : unvis dom v = unvis dom (c :: v) + 1 := by
  induction dom with
  | nil => simp at hc
  | cons a rest ih =>
    rw [List.nodup_cons] at hnd
    by_cases hac : a = c
    · subst hac
      have h1 : List.countP (fun x => decide (x ∉ v)) rest
          = List.countP (fun x => decide (x ∉ a :: v)) rest := by
        refine List.countP_congr ?_
        intro x hx
        have hxa : x ≠ a := fun hh => hnd.1 (hh ▸ hx)
        simp [List.mem_cons, hxa]
      simp only [unvis, List.countP_cons] at h1 ⊢
      rw [h1]
      simp [hv]
    · have hc' : c ∈ rest := by
        rcases List.mem_cons.1 hc with heq | hc'
        · exact absurd heq.symm hac
        · exact hc'
      have ih' := ih hnd.2 hc'
      simp only [unvis] at ih'
      by_cases hav : a ∈ v
      · have hav' : a ∈ c :: v := List.mem_cons_of_mem _ hav
        simp only [unvis]
        rw [List.countP_cons_of_neg _ _ (by simp [hav]),
          List.countP_cons_of_neg _ _ (by simp [hav'])]
        exact ih'
      · have hav' : a ∉ c :: v := by
          simp [List.mem_cons, hav, fun hh : a = c => hac hh]
        simp only [unvis]
        rw [List.countP_cons_of_pos _ _ (by simp [hav]),
          List.countP_cons_of_pos _ _ (by simp [hav'])]
        omega

theorem count_filterMap_id (fs : List (Option Nat)) (x : Nat) :
    (fs.filterMap id).count x = fs.count (some x) := by
  induction fs with
  | nil => rfl
  | cons gcf rest ih =>
    cases gcf with
    | none => simp [List.filterMap_cons, List.count_cons, ih]
    | some c =>
      simp only [List.filterMap_cons, id, List.count_cons, ih]
      by_cases hc : c = x
      · simp [hc]
      · simp [hc]

theorem applyBumps_append (bs1 bs2 : List Nat) (rs : List (Nat × Nat)) :
    applyBumps (bs1 ++ bs2) rs = applyBumps bs2 (applyBumps bs1 rs) := by
  simp [applyBumps, List.foldl_append]

theorem domainIds_hmod (h : Heap) (i : Nat) (f : GcBox → GcBox) :
    domainIds (hmod h i f) = domainIds h := by
  induction h with
  | nil => rfl
  | cons p rest ih =>
    obtain ⟨j, b⟩ := p
    by_cases hj : j = i <;> simp [hmod, hj, domainIds] at ih ⊢ <;> exact ih

theorem hfind_hmod (h : Heap) (i : Nat) (f : GcBox → GcBox) (j : Nat) :
    hfind (hmod h i f) j = if j = i then (hfind h i).map f else hfind h j := by
  induction h with
  | nil => simp [hmod, hfind]
  | cons p rest ih =>
    obtain ⟨k, b⟩ := p
    by_cases hk : k = i
    · subst hk
      by_cases hj : k = j
      · subst hj; simp [hmod, hfind]
      · have : ¬j = k := fun hh => hj hh.symm
        simp [hmod, hfind, hj, this, ih]
    · by_cases hj : k = j
      · subst hj
        have : ¬k = i := hk
        by_cases hji : k = i
        · exact absurd hji this
        · simp [hmod, hfind, hk, hji]
      · simp [hmod, hfind, hk, hj, ih]

theorem mem_hmod {h : Heap} {i : Nat} {f : GcBox → GcBox} {p : Nat × GcBox}
    (hp : p ∈ hmod h i f) : p ∈ h ∨ ∃ b : GcBox, (p.1, b) ∈ h ∧ p.2 = f b := by
  induction h with
  | nil => simp [hmod] at hp
  | cons q rest ih =>
    obtain ⟨k, b⟩ := q
    by_cases hk : k = i
    · simp only [hmod, if_pos hk] at hp
      rcases List.mem_cons.1 hp with heq | hp'
      · right
        refine ⟨b, ?_, ?_⟩
        · rw [heq]
          exact List.mem_cons_self _ _
        · rw [heq]
      · left
        exact List.mem_cons_of_mem _ hp'
    · simp only [hmod, if_neg hk] at hp
      rcases List.mem_cons.1 hp with heq | hp'
      · left
        rw [heq]
        exact List.mem_cons_self _ _
      · rcases ih hp' with h1 | ⟨b', hb', heq'⟩
        · exact Or.inl (List.mem_cons_of_mem _ h1)
        · exact Or.inr ⟨b', List.mem_cons_of_mem _ hb', heq'⟩

theorem wfHeapB_hmod {h : Heap} {dom : List Nat} (hwf : wfHeapB h dom = true)
    (i : Nat) (f : GcBox → GcBox)
    (hf : ∀ b : GcBox, ∀ gcf ∈ (f b).fields, gcf ∈ b.fields ∨ gcf = none) :
    wfHeapB (hmod h i f) dom = true := by
  unfold wfHeapB at hwf ⊢
  rw [List.all_eq_true] at hwf ⊢
  intro p hp
  rw [List.all_eq_true]
  intro gcf hgcf
  rcases mem_hmod hp with hp' | ⟨b, hb, heq⟩
  · have h1 := hwf p hp'
    rw [List.all_eq_true] at h1
    exact h1 gcf hgcf
  · rw [heq] at hgcf
    rcases hf b gcf hgcf with hmem | rfl
    · have h1 := hwf (p.1, b) hb
      rw [List.all_eq_true] at h1
      exact h1 gcf hmem
    · rfl

theorem wfHeapB_setRefCount {h : Heap} {dom : List Nat}
    (hwf : wfHeapB h dom = true) (i v : Nat) :
    wfHeapB (setRefCount h i v) dom = true := by
  refine wfHeapB_hmod hwf i _ ?_
  intro b gcf hgcf
  exact Or.inl hgcf

theorem wfHeapB_setFieldNone {h : Heap} {dom : List Nat}
    (hwf : wfHeapB h dom = true) (i idx : Nat) :
    wfHeapB (setFieldNone h i idx) dom = true := by
  refine wfHeapB_hmod hwf i _ ?_
  intro b gcf hgcf
  simp only at hgcf
  rcases List.mem_or_eq_of_mem_set hgcf with hmem | rfl
  · exact Or.inl hmem
  · exact Or.inr rfl

theorem min_satAdd (a k : Nat) :
    min (min (a + 1) usizeMax + k) usizeMax = min (a + k + 1) usizeMax := by
  omega

theorem lookupRef_applyBumps (bs : List Nat) (rs : List (Nat × Nat)) (x : Nat) :
    lookupRef (applyBumps bs rs) x =
      if bs.count x = 0 then lookupRef rs x
      else some (min ((lookupRef rs x).getD 0 + bs.count x) usizeMax) := by
  induction bs generalizing rs with
  | nil => simp [applyBumps]
  | cons c rest ih =>
    have hstep : applyBumps (c :: rest) rs = applyBumps rest (bumpRef rs c) := rfl
    rw [hstep, ih (bumpRef rs c)]
    have hcap : 1 ≤ usizeMax := by norm_num [usizeMax]
    by_cases hxc : x = c
    · subst hxc
      rw [lookupRef_bumpRef_self]
      have hcnt : (x :: rest).count x = rest.count x + 1 := by
        rw [List.count_cons]
        simp
      rw [hcnt]
      cases hrs : lookupRef rs x with
      | none =>
        by_cases hk : rest.count x = 0
        · simp [hk]
          omega
        · simp [hk]
          omega
      | some n =>
        by_cases hk : rest.count x = 0
        · simp [hk]
        · rw [if_neg hk, if_neg (by omega : ¬rest.count x + 1 = 0)]
          simp only [Option.getD_some]
          congr 1
          rw [← Nat.add_assoc]
          exact min_satAdd n (rest.count x)
    · rw [lookupRef_bumpRef_ne rs c x hxc]
      have hcnt : (c :: rest).count x = rest.count x := by
        rw [List.count_cons]
        have : ¬c = x := fun hh => hxc hh.symm
        simp [this]
      rw [hcnt]

theorem bvisit_succ_mem {fuel : Nat} {h : Heap} {st : BuildRefGraph} {c : Nat}
    (hc : c ∈ st.visited) :
    bvisit (fuel + 1) h st c = ⟨st.visited, bumpRef st.ref_state c⟩ := by
  simp [bvisit, insertId, hc]

theorem bvisit_succ_not_mem {fuel : Nat} {h : Heap} {st : BuildRefGraph} {c : Nat}
    (hc : c ∉ st.visited) :
    bvisit (fuel + 1) h st c =
      baccept fuel h ⟨c :: st.visited, bumpRef st.ref_state c⟩ (fieldsOf h c) := by
  simp [bvisit, insertId, hc, baccept]

theorem baccept_cons_none (fuel : Nat) (h : Heap) (st : BuildRefGraph)
    (fs : List (Option Nat)) :
    baccept fuel h st (none :: fs) = baccept fuel h st fs := rfl

theorem baccept_cons_some (fuel : Nat) (h : Heap) (st : BuildRefGraph) (c : Nat)
    (fs : List (Option Nat)) :
    baccept fuel h st (some c :: fs) = baccept fuel h (bvisit fuel h st c) fs := rfl

theorem buildPost_comp {h : Heap} {dom : List Nat} {st st1 st2 : BuildRefGraph}
    {s1 s2 : List Nat} (hp1 : BuildPost h dom st st1 s1)
    (hp2 : BuildPost h dom st1 st2 s2) : BuildPost h dom st st2 (s1 ++ s2) := by
  obtain ⟨a1, b1, hv1, hn1, hf1, hc1, hs1, hr1, hb1⟩ := hp1
  obtain ⟨a2, b2, hv2, hn2, hf2, hc2, hs2, hr2, hb2⟩ := hp2
  refine ⟨a2 ++ a1, b1 ++ b2, ?_, ?_, ?_, ?_, ?_, ?_, ?_⟩
  · rw [hv2, hv1, List.append_assoc]
  · rw [List.nodup_append]
    refine ⟨hn2, hn1, ?_⟩
    intro x hx2 hx1
    exact (hf2 x hx2).1 (hv1 ▸ List.mem_append_left _ hx1)
  · intro x hx
    rcases List.mem_append.1 hx with hx2 | hx1
    · exact ⟨fun hxst => (hf2 x hx2).1 (hv1 ▸ List.mem_append_right _ hxst),
        (hf2 x hx2).2⟩
    · exact hf1 x hx1
  · intro a ha x hx
    rcases List.mem_append.1 ha with ha2 | ha1
    · exact hc2 a ha2 x hx
    · exact hv2 ▸ List.mem_append_right _ (hc1 a ha1 x hx)
  · intro x hx
    rcases List.mem_append.1 hx with hxs1 | hxs2
    · exact hv2 ▸ List.mem_append_right _ (hs1 x hxs1)
    · exact hs2 x hxs2
  · rw [hr2, hr1, ← applyBumps_append]
  · intro x
    rw [List.count_append, hb1 x, hb2 x, List.count_append, List.map_append,
      List.sum_append]
    omega

theorem build_traversal_spec :
    ∀ fuel : Nat,
      (∀ (h : Heap) (dom : List Nat) (st : BuildRefGraph) (c : Nat),
        dom.Nodup → wfHeapB h dom = true → c ∈ dom →
        unvis dom st.visited + 1 ≤ fuel →
        BuildPost h dom st (bvisit fuel h st c) [c]) ∧
      (∀ (h : Heap) (dom : List Nat) (st : BuildRefGraph) (fs : List (Option Nat)),
        dom.Nodup → wfHeapB h dom = true →
        (∀ x : Nat, some x ∈ fs → x ∈ dom) →
        unvis dom st.visited + 1 ≤ fuel →
        BuildPost h dom st (baccept fuel h st fs) (fs.filterMap id)) := by
  intro fuel
  induction fuel using Nat.strong_induction_on with
  | _ fuel IH =>
  have hA : ∀ (h : Heap) (dom : List Nat) (st : BuildRefGraph) (c : Nat),
      dom.Nodup → wfHeapB h dom = true → c ∈ dom →
      unvis dom st.visited + 1 ≤ fuel →
      BuildPost h dom st (bvisit fuel h st c) [c] := by
    intro h dom st c hnd hwf hc hfuel
    cases fuel with
    | zero => omega
    | succ f =>
      by_cases hv : c ∈ st.visited
      · rw [bvisit_succ_mem hv]
        refine ⟨[], [c], by simp, List.nodup_nil, by simp, by simp, ?_, rfl, ?_⟩
        · intro x hx
          rcases List.mem_singleton.1 hx with rfl
          exact hv
        · intro x
          simp
      · rw [bvisit_succ_not_mem hv]
        have hdec : unvis dom st.visited = unvis dom (c :: st.visited) + 1 :=
          unvis_insert hnd hc hv
        have hfs : ∀ x : Nat, some x ∈ fieldsOf h c → x ∈ dom :=
          fun x hx => wfHeapB_fields hwf hx
        have hfuel1 :
            unvis dom (⟨c :: st.visited, bumpRef st.ref_state c⟩ :
              BuildRefGraph).visited + 1 ≤ f := by
          simp only
          omega
        have hB := (IH f (by omega)).2 h dom ⟨c :: st.visited, bumpRef st.ref_state c⟩
          (fieldsOf h c) hnd hwf hfs hfuel1
        obtain ⟨acc, bs, hv', hn', hf', hc', hs', hr', hb'⟩ := hB
        simp only at hv' hf' hc' hs' hr'
        refine ⟨acc ++ [c], c :: bs, ?_, ?_, ?_, ?_, ?_, ?_, ?_⟩
        · rw [hv', List.append_assoc, List.singleton_append]
        · rw [List.nodup_append]
          refine ⟨hn', List.nodup_singleton c, ?_⟩
          intro x hx hxc
          rcases List.mem_singleton.1 hxc with rfl
          exact (hf' x hx).1 (List.mem_cons_self _ _)
        · intro x hx
          rcases List.mem_append.1 hx with hxa | hxc
          · exact ⟨fun hxst => (hf' x hxa).1 (List.mem_cons_of_mem _ hxst),
              (hf' x hxa).2⟩
          · rcases List.mem_singleton.1 hxc with rfl
            exact ⟨hv, hc⟩
        · intro a ha x hx
          rcases List.mem_append.1 ha with haa | hac
          · exact hc' a haa x hx
          · rcases List.mem_singleton.1 hac with rfl
            exact hs' x (List.mem_filterMap.2 ⟨some x, hx, rfl⟩)
        · intro x hx
          rcases List.mem_singleton.1 hx with rfl
          rw [hv']
          exact List.mem_append_right _ (List.mem_cons_self _ _)
        · rw [hr']
          have : bumpRef st.ref_state c = applyBumps [c] st.ref_state := rfl
          rw [this, ← applyBumps_append, List.singleton_append]
        · intro x
          rw [List.count_cons, hb' x, count_filterMap_id, List.map_append,
            List.sum_append, List.count_singleton']
          simp only [List.map_cons, List.map_nil, List.sum_cons, List.sum_nil]
          by_cases hcx : c = x
          · subst hcx
            simp
            omega
          · have hxc2 : ¬x = c := fun hh => hcx hh.symm
            simp [hcx, hxc2]
            omega
  have hBp : ∀ (h : Heap) (dom : List Nat) (st : BuildRefGraph)
      (fs : List (Option Nat)),
      dom.Nodup → wfHeapB h dom = true →
      (∀ x : Nat, some x ∈ fs → x ∈ dom) →
      unvis dom st.visited + 1 ≤ fuel →
      BuildPost h dom st (baccept fuel h st fs) (fs.filterMap id) := by
    intro h dom st fs hnd hwf hsub hfuel
    induction fs generalizing st with
    | nil =>
      refine ⟨[], [], by simp [baccept], List.nodup_nil, by simp, by simp, by simp,
        by simp [baccept, applyBumps], ?_⟩
      intro x
      simp
    | cons gcf fs ihf =>
      cases gcf with
      | none =>
        rw [baccept_cons_none]
        have hsub' : ∀ x : Nat, some x ∈ fs → x ∈ dom :=
          fun x hx => hsub x (List.mem_cons_of_mem _ hx)
        have := ihf st hsub' hfuel
        simpa using this
      | some c =>
        rw [baccept_cons_some]
        have hc : c ∈ dom := hsub c (List.mem_cons_self _ _)
        have h1 := hA h dom st c hnd hwf hc hfuel
        have hmono : ∀ x ∈ st.visited, x ∈ (bvisit fuel h st c).visited := by
          obtain ⟨a1, b1, hv1, _⟩ := h1
          intro x hx
          exact hv1 ▸ List.mem_append_right _ hx
        have hfuel2 : unvis dom (bvisit fuel h st c).visited + 1 ≤ fuel := by
          have := unvis_mono dom hmono
          omega
        have hsub' : ∀ x : Nat, some x ∈ fs → x ∈ dom :=
          fun x hx => hsub x (List.mem_cons_of_mem _ hx)
        have h2 := ihf (bvisit fuel h st c) hsub' hfuel2
        have h3 := buildPost_comp h1 h2
        simpa using h3
  exact ⟨hA, hBp⟩

theorem buildPass_eq_foldl (fuel : Nat) (h : Heap) (reg : List Nat) :
    buildPass fuel h reg = reg.foldl (bstep fuel h) ⟨[], []⟩ := rfl

theorem sweepPass_eq_foldl (fuel : Nat) (h : Heap) (reg : List Nat)
    (rs : List (Nat × Nat)) :
    sweepPass fuel h reg rs = reg.foldl (sstep fuel h rs) [] := rfl

theorem bstep_fold_spec (fuel : Nat) (h : Heap) (dom : List Nat)
    (hnd : dom.Nodup) (hwf : wfHeapB h dom = true)
    (hfuel : dom.length + 1 ≤ fuel) :
    ∀ (reg : List Nat) (st : BuildRefGraph),
      (∀ k ∈ reg, k ∈ dom) →
      st.visited.Nodup → (∀ x ∈ st.visited, x ∈ dom) →
      (∃ bs : List Nat, st.ref_state = applyBumps bs [] ∧
        ∀ x : Nat,
          bs.count x = (st.visited.map fun a => (fieldsOf h a).count (some x)).sum) →
      (reg.foldl (bstep fuel h) st).visited.Nodup ∧
      (∀ x ∈ (reg.foldl (bstep fuel h) st).visited, x ∈ dom) ∧
      (∀ k ∈ reg, k ∈ (reg.foldl (bstep fuel h) st).visited) ∧
      (∀ x ∈ st.visited, x ∈ (reg.foldl (bstep fuel h) st).visited) ∧
      (∃ bs : List Nat, (reg.foldl (bstep fuel h) st).ref_state = applyBumps bs [] ∧
        ∀ x : Nat,
          bs.count x =
            ((reg.foldl (bstep fuel h) st).visited.map
              fun a => (fieldsOf h a).count (some x)).sum) := by
  intro reg
  induction reg with
  | nil =>
    intro st hreg hn hsub hbs
    exact ⟨hn, hsub, by simp, fun x hx => hx, hbs⟩
  | cons k reg ih =>
    intro st hreg hn hsub hbs
    obtain ⟨bs, hrs, hcnt⟩ := hbs
    have hkdom : k ∈ dom := hreg k (List.mem_cons_self _ _)
    have hreg' : ∀ j ∈ reg, j ∈ dom := fun j hj => hreg j (List.mem_cons_of_mem _ hj)
    rw [List.foldl_cons]
    by_cases hk : k ∈ st.visited
    · rw [show bstep fuel h st k = st by simp [bstep, hk]]
      have hres := ih st hreg' hn hsub ⟨bs, hrs, hcnt⟩
      refine ⟨hres.1, hres.2.1, ?_, hres.2.2.2.1, hres.2.2.2.2⟩
      intro j hj
      rcases List.mem_cons.1 hj with rfl | hj'
      · exact hres.2.2.2.1 j hk
      · exact hres.2.2.1 j hj'
    · rw [show bstep fuel h st k =
          baccept fuel h ⟨k :: st.visited, st.ref_state⟩ (fieldsOf h k) by
        simp [bstep, hk]]
      have hfuel1 :
          unvis dom (⟨k :: st.visited, st.ref_state⟩ : BuildRefGraph).visited + 1
            ≤ fuel := by
        simp only
        have := unvis_le_length dom (k :: st.visited)
        omega
      have hp := (build_traversal_spec fuel).2 h dom ⟨k :: st.visited, st.ref_state⟩
        (fieldsOf h k) hnd hwf (fun x hx => wfHeapB_fields hwf hx) hfuel1
      obtain ⟨acc, bs', hv', hn', hf', hc', hs', hr', hb'⟩ := hp
      simp only at hv' hf' hr'
      set st2 := baccept fuel h ⟨k :: st.visited, st.ref_state⟩ (fieldsOf h k)
        with hst2
      have hn2 : st2.visited.Nodup := by
        rw [hv', List.nodup_append]
        refine ⟨hn', List.nodup_cons.2 ⟨hk, hn⟩, ?_⟩
        intro x hx hxk
        exact (hf' x hx).1 hxk
      have hsub2 : ∀ x ∈ st2.visited, x ∈ dom := by
        intro x hx
        rw [hv'] at hx
        rcases List.mem_append.1 hx with hxa | hxk
        · exact (hf' x hxa).2
        · rcases List.mem_cons.1 hxk with rfl | hxs
          · exact hkdom
          · exact hsub x hxs
      have hbs2 : ∃ cs : List Nat, st2.ref_state = applyBumps cs [] ∧
          ∀ x : Nat,
            cs.count x = (st2.visited.map fun a => (fieldsOf h a).count (some x)).sum := by
        refine ⟨bs ++ bs', ?_, ?_⟩
        · rw [hr', hrs, ← applyBumps_append]
        · intro x
          rw [List.count_append, hcnt x, hb' x, count_filterMap_id, hv',
            List.map_append, List.sum_append]
          simp only [List.map_cons, List.sum_cons]
          omega
      have hres := ih st2 hreg' hn2 hsub2 hbs2
      have hmono2 : ∀ x ∈ st2.visited, x ∈ (reg.foldl (bstep fuel h) st2).visited :=
        hres.2.2.2.1
      refine ⟨hres.1, hres.2.1, ?_, ?_, hres.2.2.2.2⟩
      · intro j hj
        rcases List.mem_cons.1 hj with rfl | hj'
        · refine hmono2 j ?_
          rw [hv']
          exact List.mem_append_right _ (List.mem_cons_self _ _)
        · exact hres.2.2.1 j hj'
      · intro x hx
        refine hmono2 x ?_
        rw [hv']
        exact List.mem_append_right _ (List.mem_cons_of_mem _ hx)

theorem sum_fieldsOf_domain (h : Heap) (hk : (domainIds h).Nodup) (x : Nat) :
    ((domainIds h).map fun a => (fieldsOf h a).count (some x)).sum = indegree h x := by
  induction h with
  | nil => rfl
  | cons p t ih =>
    obtain ⟨j, b⟩ := p
    simp only [domainIds, List.map_cons] at hk ⊢
    rw [List.nodup_cons] at hk
    have hjf : fieldsOf ((j, b) :: t) j = b.fields := by
      simp [fieldsOf, hfind]
    have hcongr : ∀ a ∈ t.map Prod.fst,
        (fieldsOf ((j, b) :: t) a).count (some x) = (fieldsOf t a).count (some x) := by
      intro a ha
      have hja : ¬j = a := fun hh => hk.1 (hh ▸ ha)
      simp [fieldsOf, hfind, hja]
    rw [List.sum_cons, hjf, List.map_congr_left hcongr]
    have ih' := ih hk.2
    simp only [domainIds] at ih'
    rw [ih']
    simp [indegree]

theorem sweepPass_no_roots (fuel : Nat) (h : Heap) (rs : List (Nat × Nat))
    (reg : List Nat) (hroots : ∀ i ∈ reg, isRoot h rs i = false) :
    sweepPass fuel h reg rs = [] := by
  rw [sweepPass_eq_foldl]
  have aux : ∀ (l : List Nat) (vs : List Nat), (∀ i ∈ l, isRoot h rs i = false) →
      l.foldl (sstep fuel h rs) vs = vs := by
    intro l
    induction l with
    | nil => intro vs _; rfl
    | cons i t ih =>
      intro vs hl
      rw [List.foldl_cons, show sstep fuel h rs vs i = vs by
        simp [sstep, hl i (List.mem_cons_self _ _)]]
      exact ih vs (fun j hj => hl j (List.mem_cons_of_mem _ hj))
  exact aux reg [] hroots

theorem destroyPost_comp {dom : List Nat} {d d1 d2 : DestroyGcs}
    {e1 e2 : List Ev} {s1 s2 : List Nat} (hp1 : DestroyPost dom d d1 e1 s1)
    (hp2 : DestroyPost dom d1 d2 e2 s2) :
    DestroyPost dom d d2 (e1 ++ e2) (s1 ++ s2) := by
  obtain ⟨a1, hv1, hn1, hf1, hrc1, hev1, q1, hq1, hqc1⟩ := hp1
  obtain ⟨a2, hv2, hn2, hf2, hrc2, hev2, q2, hq2, hqc2⟩ := hp2
  refine ⟨a2 ++ a1, ?_, ?_, ?_, ?_, ?_, q1 ++ q2, ?_, ?_⟩
  · rw [hv2, hv1, List.append_assoc]
  · rw [List.nodup_append]
    refine ⟨hn2, hn1, ?_⟩
    intro x hx2 hx1
    exact (hf2 x hx2).1 (hv1 ▸ List.mem_append_left _ hx1)
  · intro x hx
    rcases List.mem_append.1 hx with hx2 | hx1
    · exact ⟨fun hxst => (hf2 x hx2).1 (hv1 ▸ List.mem_append_right _ hxst),
        (hf2 x hx2).2⟩
    · exact hf1 x hx1
  · rw [hrc2, hrc1]
  · intro x
    rw [List.count_append, hev1 x, hev2 x]
    simp only [List.count_append]
    omega
  · rw [hq2, hq1, List.append_assoc]
  · intro x
    rw [List.map_append, List.count_append, hqc1 x, hqc2 x]
    simp only [List.count_append]
    omega

theorem dstep_fold_events (f i : Nat) :
    ∀ (l : List Nat) (h : Heap) (d : DestroyGcs) (e : List Ev),
      l.foldl (dstep f i) (h, d, e) =
        ((l.foldl (dstep f i) (h, d, [])).1, (l.foldl (dstep f i) (h, d, [])).2.1,
         e ++ (l.foldl (dstep f i) (h, d, [])).2.2) := by
  intro l
  induction l with
  | nil => intro h d e; simp
  | cons idx t ih =>
    intro h d e
    rw [List.foldl_cons, List.foldl_cons, dstep_eq_dvisitField, dstep_eq_dvisitField]
    simp only
    rw [ih (dvisitField f h d i idx).1 (dvisitField f h d i idx).2.1
        (e ++ (dvisitField f h d i idx).2.2),
      ih (dvisitField f h d i idx).1 (dvisitField f h d i idx).2.1
        ([] ++ (dvisitField f h d i idx).2.2)]
    simp

theorem count_destruct_nullGc (x c : Nat) (l : List Ev) :
    (Ev.nullGc c :: l).count (Ev.destruct x) = l.count (Ev.destruct x) := by
  rw [List.count_cons]
  simp

theorem count_destruct_forceZero (x i : Nat) (l : List Ev) :
    (Ev.forceZero i :: l).count (Ev.destruct x) = l.count (Ev.destruct x) := by
  rw [List.count_cons]
  simp

theorem count_destruct_self (x i : Nat) :
    List.count (Ev.destruct x) [Ev.destruct i] = List.count x [i] := by
  by_cases hix : i = x
  · subst hix
    simp
  · rw [List.count_singleton', List.count_singleton']
    have h1 : ¬Ev.destruct i = Ev.destruct x := by simp [hix]
    have h2 : ¬i = x := hix
    simp [h1, h2]

theorem destroyPost_refl (dom : List Nat) (d : DestroyGcs) :
    DestroyPost dom d d [] [] := by
  refine ⟨[], ?_, List.nodup_nil, ?_, rfl, ?_, [], ?_, ?_⟩
  · simp
  · intro x hx
    simp at hx
  · intro x
    simp
  · simp
  · intro x
    simp

theorem destroyPost_nullOnly (dom : List Nat) (d : DestroyGcs) (c : Nat) :
    DestroyPost dom d d [Ev.nullGc c] [] := by
  refine ⟨[], ?_, List.nodup_nil, ?_, rfl, ?_, [], ?_, ?_⟩
  · simp
  · intro x hx
    simp at hx
  · intro x
    rw [count_destruct_nullGc]
    simp
  · simp
  · intro x
    simp

theorem destroy_spec :
    ∀ fuel : Nat, ∀ (h : Heap) (dom : List Nat) (d : DestroyGcs) (i : Nat)
      (top : Bool),
      dom.Nodup → wfHeapB h dom = true → i ∈ d.visited →
      unvis dom d.visited + 1 ≤ fuel →
      DestroyPost dom d (destroyBox fuel h d i top).2.1
        (destroyBox fuel h d i top).2.2 [i] ∧
      domainIds (destroyBox fuel h d i top).1 = domainIds h ∧
      wfHeapB (destroyBox fuel h d i top).1 dom = true := by
  intro fuel
  induction fuel using Nat.strong_induction_on with
  | _ fuel IH =>
  intro h dom d i top hnd hwf hvis hfuel
  cases fuel with
  | zero => omega
  | succ f =>
  have hvisit : ∀ (hh : Heap) (dd : DestroyGcs) (p idx : Nat),
      wfHeapB hh dom = true → unvis dom dd.visited ≤ f →
      DestroyPost dom dd (dvisitField f hh dd p idx).2.1
        (dvisitField f hh dd p idx).2.2 [] ∧
      domainIds (dvisitField f hh dd p idx).1 = domainIds hh ∧
      wfHeapB (dvisitField f hh dd p idx).1 dom = true := by
    intro hh dd p idx hwfh hfl
    unfold dvisitField
    cases hfat : fieldAt hh p idx with
    | none =>
      simp only
      exact ⟨destroyPost_refl dom dd, by trivial, hwfh⟩
    | some gcf =>
      cases gcf with
      | none =>
        simp only
        exact ⟨destroyPost_refl dom dd, by trivial, hwfh⟩
      | some c =>
        have hcdom : c ∈ dom := wfHeapB_fields hwfh (fieldAt_mem_fields hfat)
        simp only
        by_cases hr : c ∈ dd.reachable
        · rw [if_pos hr]
          exact ⟨destroyPost_nullOnly dom dd c,
            by simp [setFieldNone, domainIds_hmod],
            wfHeapB_setFieldNone hwfh p idx⟩
        · rw [if_neg hr]
          by_cases hvm : c ∈ dd.visited
          · rw [show insertId dd.visited c = (dd.visited, false) by
              simp [insertId, hvm]]
            simp only
            have heta : { dd with visited := dd.visited } = dd := rfl
            rw [heta]
            exact ⟨destroyPost_nullOnly dom dd c,
              by simp [setFieldNone, domainIds_hmod],
              wfHeapB_setFieldNone hwfh p idx⟩
          · rw [show insertId dd.visited c = (c :: dd.visited, true) by
              simp [insertId, hvm]]
            simp only
            have hwf1 : wfHeapB (setFieldNone hh p idx) dom = true :=
              wfHeapB_setFieldNone hwfh p idx
            have hdec : unvis dom dd.visited = unvis dom (c :: dd.visited) + 1 :=
              unvis_insert hnd hcdom hvm
            have hfl1 : unvis dom
                ({ dd with visited := c :: dd.visited } : DestroyGcs).visited + 1
                  ≤ f := by
              simp only
              omega
            have hspec := IH f (by omega) (setFieldNone hh p idx) dom
              { dd with visited := c :: dd.visited } c false hnd hwf1
              (List.mem_cons_self _ _) hfl1
            obtain ⟨hpost, hdom1, hwf2⟩ := hspec
            obtain ⟨accI, hv1, hn1, hf1, hrc1, hev1, qs1, hq1, hqc1⟩ := hpost
            simp only at hv1 hf1 hrc1 hq1
            refine ⟨⟨accI ++ [c], ?_, ?_, ?_, ?_, ?_, qs1, ?_, ?_⟩, ?_, hwf2⟩
            · rw [hv1, List.append_assoc, List.singleton_append]
            · rw [List.nodup_append]
              refine ⟨hn1, List.nodup_singleton c, ?_⟩
              intro x hx hxc
              rcases List.mem_singleton.1 hxc with rfl
              exact (hf1 x hx).1 (List.mem_cons_self _ _)
            · intro x hx
              rcases List.mem_append.1 hx with hxa | hxc
              · exact ⟨fun hxst => (hf1 x hxa).1 (List.mem_cons_of_mem _ hxst),
                  (hf1 x hxa).2⟩
              · rcases List.mem_singleton.1 hxc with rfl
                exact ⟨hvm, hcdom⟩
            · exact hrc1
            · intro x
              rw [count_destruct_nullGc, List.nil_append]
              have hx1 := hev1 x
              rw [List.count_append] at hx1
              rw [List.count_append]
              omega
            · exact hq1
            · intro x
              have hx1 := hqc1 x
              rw [List.count_append, List.count_singleton'] at hx1
              rw [List.nil_append, List.count_append, List.count_singleton']
              omega
            · rw [hdom1]
              simp [setFieldNone, domainIds_hmod]
  have hfold : ∀ (l : List Nat) (hh : Heap) (dd : DestroyGcs),
      wfHeapB hh dom = true → unvis dom dd.visited ≤ f →
      DestroyPost dom dd (l.foldl (dstep f i) (hh, dd, [])).2.1
        (l.foldl (dstep f i) (hh, dd, [])).2.2 [] ∧
      domainIds (l.foldl (dstep f i) (hh, dd, [])).1 = domainIds hh ∧
      wfHeapB (l.foldl (dstep f i) (hh, dd, [])).1 dom = true := by
    intro l
    induction l with
    | nil =>
      intro hh dd hwfh hfl
      exact ⟨destroyPost_refl dom dd, rfl, hwfh⟩
    | cons idx t ihl =>
      intro hh dd hwfh hfl
      rw [List.foldl_cons, dstep_eq_dvisitField]
      simp only
      obtain ⟨hpost1, hdom1, hwf1⟩ := hvisit hh dd i idx hwfh hfl
      have hmono : ∀ x ∈ dd.visited, x ∈ (dvisitField f hh dd i idx).2.1.visited := by
        obtain ⟨acc1, hv1, _⟩ := hpost1
        intro x hx
        exact hv1 ▸ List.mem_append_right _ hx
      have hfl2 : unvis dom (dvisitField f hh dd i idx).2.1.visited ≤ f := by
        have := unvis_mono dom hmono
        omega
      obtain ⟨hpost2, hdom2, hwf2⟩ := ihl (dvisitField f hh dd i idx).1
        (dvisitField f hh dd i idx).2.1 hwf1 hfl2
      rw [dstep_fold_events, List.nil_append]
      have hcomp := destroyPost_comp hpost1 hpost2
      simp only [List.append_nil] at hcomp
      exact ⟨hcomp, by rw [hdom2, hdom1], hwf2⟩
  rw [destroyBox_succ]
  simp only
  have hwfh1 : wfHeapB (setRefCount h i 0) dom = true := wfHeapB_setRefCount hwf i 0
  have hfl0 : unvis dom d.visited ≤ f := by omega
  rw [destroyFields_eq_foldl_dstep]
  obtain ⟨hpost0, hdom0, hwf0⟩ := hfold
    (List.range (fieldsOf (setRefCount h i 0) i).length) (setRefCount h i 0) d
    hwfh1 hfl0
  obtain ⟨acc0, hv0, hn0, hf0, hrc0, hev0, qs0, hq0, hqc0⟩ := hpost0
  refine ⟨⟨acc0, hv0, hn0, hf0, hrc0, ?_, qs0 ++ [pushedPair i top], ?_, ?_⟩, ?_, hwf0⟩
  · intro x
    rw [List.count_append, count_destruct_forceZero, count_destruct_self]
    have hx0 := hev0 x
    rw [List.nil_append] at hx0
    rw [List.count_append]
    omega
  · rw [hq0, List.append_assoc]
  · intro x
    rw [List.map_append, List.count_append, List.map_singleton]
    have hx0 := hqc0 x
    rw [List.nil_append] at hx0
    have hpid : ptrId (pushedPair i top).1 = i := by
      cases top
      · rfl
      · rfl
    rw [hpid, List.count_append]
    omega
  · rw [hdom0]
    exact domainIds_hmod h i _

theorem dtop_fold_spec (fuel : Nat) (dom : List Nat) (hnd : dom.Nodup)
    (hfuel : dom.length + 1 ≤ fuel) :
    ∀ (reg : List Nat) (acc : Heap × DestroyGcs × List Ev),
      (∀ k ∈ reg, k ∈ dom) →
      wfHeapB acc.1 dom = true →
      acc.2.1.reachable = [] →
      acc.2.1.visited.Nodup →
      (∀ x ∈ acc.2.1.visited, x ∈ dom) →
      (∀ x : Nat, acc.2.2.count (Ev.destruct x) = acc.2.1.visited.count x) →
      (∀ x : Nat, ((acc.2.1.collection_queue.map fun e => ptrId e.1).count x
        = acc.2.1.visited.count x)) →
      (reg.foldl (dtop fuel) acc).2.1.visited.Nodup ∧
      (∀ k ∈ reg, k ∈ (reg.foldl (dtop fuel) acc).2.1.visited) ∧
      (∀ x ∈ acc.2.1.visited, x ∈ (reg.foldl (dtop fuel) acc).2.1.visited) ∧
      (∀ x : Nat, (reg.foldl (dtop fuel) acc).2.2.count (Ev.destruct x)
        = (reg.foldl (dtop fuel) acc).2.1.visited.count x) ∧
      (∀ x : Nat,
        (((reg.foldl (dtop fuel) acc).2.1.collection_queue.map
          fun e => ptrId e.1).count x
        = (reg.foldl (dtop fuel) acc).2.1.visited.count x)) := by
  intro reg
  induction reg with
  | nil =>
    intro acc hreg hwfa hre hna hsuba heva hqa
    exact ⟨hna, by simp, fun x hx => hx, heva, hqa⟩
  | cons i t ih =>
    intro acc hreg hwfa hre hna hsuba heva hqa
    obtain ⟨ha, da, ea⟩ := acc
    simp only at hwfa hre hna hsuba heva hqa
    have hidom : i ∈ dom := hreg i (List.mem_cons_self _ _)
    have hreg' : ∀ k ∈ t, k ∈ dom := fun k hk => hreg k (List.mem_cons_of_mem _ hk)
    rw [List.foldl_cons]
    by_cases hvm : i ∈ da.visited
    · have hstep : dtop fuel (ha, da, ea) i = (ha, da, ea) := by
        unfold dtop
        simp only
        rw [if_neg (by simp [hre]),
          show insertId da.visited i = (da.visited, false) by simp [insertId, hvm]]
      rw [hstep]
      have hres := ih (ha, da, ea) hreg' hwfa hre hna hsuba heva hqa
      refine ⟨hres.1, ?_, hres.2.2.1, hres.2.2.2.1, hres.2.2.2.2⟩
      intro k hk
      rcases List.mem_cons.1 hk with rfl | hk'
      · exact hres.2.2.1 k hvm
      · exact hres.2.1 k hk'
    · have hstep : dtop fuel (ha, da, ea) i =
          ((destroyBox fuel ha { da with visited := i :: da.visited } i true).1,
           (destroyBox fuel ha { da with visited := i :: da.visited } i true).2.1,
           ea ++ (destroyBox fuel ha { da with visited := i :: da.visited } i true).2.2) := by
        unfold dtop
        simp only
        rw [if_neg (by simp [hre]),
          show insertId da.visited i = (i :: da.visited, true) by simp [insertId, hvm]]
      rw [hstep]
      have hfl1 : unvis dom
          ({ da with visited := i :: da.visited } : DestroyGcs).visited + 1 ≤ fuel := by
        simp only
        have := unvis_le_length dom (i :: da.visited)
        omega
      have hspec := destroy_spec fuel ha dom { da with visited := i :: da.visited }
        i true hnd hwfa (List.mem_cons_self _ _) hfl1
      obtain ⟨hpost, hdomp, hwfp⟩ := hspec
      obtain ⟨accD, hvD, hnD, hfD, hrcD, hevD, qsD, hqD, hqcD⟩ := hpost
      simp only at hvD hfD hrcD hqD
      have hnew_n : (destroyBox fuel ha { da with visited := i :: da.visited } i
          true).2.1.visited.Nodup := by
        rw [hvD, List.nodup_append]
        refine ⟨hnD, List.nodup_cons.2 ⟨hvm, hna⟩, ?_⟩
        intro x hx hxm
        exact (hfD x hx).1 hxm
      have hnew_sub : ∀ x ∈ (destroyBox fuel ha { da with visited := i :: da.visited }
          i true).2.1.visited, x ∈ dom := by
        intro x hx
        rw [hvD] at hx
        rcases List.mem_append.1 hx with hxa | hxm
        · exact (hfD x hxa).2
        · rcases List.mem_cons.1 hxm with rfl | hxs
          · exact hidom
          · exact hsuba x hxs
      have hnew_re : (destroyBox fuel ha { da with visited := i :: da.visited } i
          true).2.1.reachable = [] := by
        rw [hrcD]
        exact hre
      have hnew_ev : ∀ x : Nat,
          (ea ++ (destroyBox fuel ha { da with visited := i :: da.visited } i
            true).2.2).count (Ev.destruct x)
          = (destroyBox fuel ha { da with visited := i :: da.visited } i
            true).2.1.visited.count x := by
        intro x
        rw [List.count_append, heva x, hevD x, hvD]
        simp only [List.count_append, List.count_cons, List.count_nil]
        omega
      have hnew_q : ∀ x : Nat,
          (((destroyBox fuel ha { da with visited := i :: da.visited } i
            true).2.1.collection_queue.map fun e => ptrId e.1).count x
          = (destroyBox fuel ha { da with visited := i :: da.visited } i
            true).2.1.visited.count x) := by
        intro x
        rw [hqD, List.map_append, List.count_append, hqa x, hqcD x, hvD]
        simp only [List.count_append, List.count_cons, List.count_nil]
        omega
      have hres := ih
        ((destroyBox fuel ha { da with visited := i :: da.visited } i true).1,
         (destroyBox fuel ha { da with visited := i :: da.visited } i true).2.1,
         ea ++ (destroyBox fuel ha { da with visited := i :: da.visited } i true).2.2)
        hreg' hwfp hnew_re hnew_n hnew_sub hnew_ev hnew_q
      refine ⟨hres.1, ?_, ?_, hres.2.2.2.1, hres.2.2.2.2⟩
      · intro k hk
        rcases List.mem_cons.1 hk with rfl | hk'
        · refine hres.2.2.1 k ?_
          rw [hvD]
          exact List.mem_append_right _ (List.mem_cons_self _ _)
        · exact hres.2.1 k hk'
      · intro x hx
        refine hres.2.2.1 x ?_
        rw [hvD]
        exact List.mem_append_right _ (List.mem_cons_of_mem _ hx)

/-- C4: for a strongly-connected component of managed allocations with no
references from outside the component, with every external reference
dropped and every member registered (the registry lists exactly the
component, each member's reference count equals its internal indegree),
one call to `collect_all` destroys and deallocates every allocation of the
component, and each payload destructor runs exactly once. -/
theorem claim_C4_dead_scc_reclaimed :
    ∀ (h : Heap) (reg : List Nat) (fuel nd nl : Nat),
      (domainIds h).Nodup → reg.Nodup →
      (∀ k ∈ reg, k ∈ domainIds h) → (∀ k ∈ domainIds h, k ∈ reg) →
      wfHeapB h reg = true →
      (∀ i ∈ reg, refCountOf h i = indegree h i) →
      (∀ i ∈ reg, 1 ≤ refCountOf h i) →
      (∀ i ∈ reg, indegree h i ≤ usizeMax) →
      (∀ a ∈ reg, ∀ b ∈ reg, reachesIn h.length h a b = true) →
      h.length + 1 ≤ fuel →
      ∀ i ∈ reg,
        (collectAll fuel h ⟨reg, nd, nl⟩).events.count (Ev.destruct i) = 1 ∧
        ((collectAll fuel h ⟨reg, nd, nl⟩).queue.map fun e => ptrId e.1).count i
          = 1 := by
  intro h reg fuel nd nl hknd hrnd hr1 hr2 hwf hcount hpos hcap hsc hfuel i hi
  have hperm : reg.Perm (domainIds h) :=
    (List.perm_ext_iff_of_nodup hrnd hknd).2 (fun a => ⟨hr1 a, hr2 a⟩)
  have hlen : reg.length = h.length := by
    have h1 := hperm.length_eq
    simpa [domainIds] using h1
  have hfuelr : reg.length + 1 ≤ fuel := by omega
  have hinit : ∃ bs : List Nat,
      (⟨[], []⟩ : BuildRefGraph).ref_state = applyBumps bs [] ∧
      ∀ x : Nat, bs.count x =
        ((⟨[], []⟩ : BuildRefGraph).visited.map
          fun a => (fieldsOf h a).count (some x)).sum := by
    refine ⟨[], rfl, ?_⟩
    intro x
    simp
  have hb := bstep_fold_spec fuel h reg hrnd hwf hfuelr reg ⟨[], []⟩
    (fun k hk => hk) List.nodup_nil (by intro x hx; simp at hx) hinit
  rw [← buildPass_eq_foldl] at hb
  obtain ⟨hVn, hVsub, hVcov, hVmono, bs, hrs, hcnt⟩ := hb
  have hVperm : (buildPass fuel h reg).visited.Perm (domainIds h) := by
    refine (List.perm_ext_iff_of_nodup hVn hknd).2 ?_
    intro a
    constructor
    · intro ha
      exact hr1 a (hVsub a ha)
    · intro ha
      exact hVcov a (hr2 a ha)
  have hsum : ∀ x : Nat,
      ((buildPass fuel h reg).visited.map
        fun a => (fieldsOf h a).count (some x)).sum = indegree h x := by
    intro x
    rw [(hVperm.map _).sum_eq]
    exact sum_fieldsOf_domain h hknd x
  have hlook : ∀ j ∈ reg,
      lookupRef (buildPass fuel h reg).ref_state j = some (refCountOf h j) := by
    intro j hj
    rw [hrs, lookupRef_applyBumps]
    have hbsj : bs.count j = indegree h j := by rw [hcnt j, hsum j]
    have hind : 1 ≤ indegree h j := by
      rw [← hcount j hj]
      exact hpos j hj
    rw [hbsj, if_neg (by omega)]
    have hmin : min ((lookupRef [] j).getD 0 + indegree h j) usizeMax
        = refCountOf h j := by
      have hc := hcap j hj
      rw [hcount j hj]
      simp [lookupRef]
      omega
    rw [hmin]
  have hroots : ∀ j ∈ reg, isRoot h (buildPass fuel h reg).ref_state j = false := by
    intro j hj
    unfold isRoot
    rw [hlook j hj]
    simp
  have hsweep : sweepPass fuel h reg (buildPass fuel h reg).ref_state = [] :=
    sweepPass_no_roots fuel h _ reg hroots
  have hdrain := dtop_fold_spec fuel reg hrnd hfuelr reg (h, ⟨[], [], []⟩, [])
    (fun k hk => hk) hwf rfl List.nodup_nil (by intro x hx; simp at hx)
    (by intro x; simp) (by intro x; simp)
  rw [← drainPass_eq_foldl_dtop] at hdrain
  obtain ⟨hDn, hDcov, hDmono, hDev, hDq⟩ := hdrain
  have hiv : i ∈ (drainPass fuel h reg []).2.1.visited := hDcov i hi
  have hone : (drainPass fuel h reg []).2.1.visited.count i = 1 :=
    List.count_eq_one_of_mem hDn hiv
  have hqueue_eq : (collectAll fuel h ⟨reg, nd, nl⟩).queue =
      (drainPass fuel h reg
        (sweepPass fuel h reg (buildPass fuel h reg).ref_state)).2.1.collection_queue :=
    rfl
  have hevents_eq : (collectAll fuel h ⟨reg, nd, nl⟩).events =
      (drainPass fuel h reg
        (sweepPass fuel h reg (buildPass fuel h reg).ref_state)).2.2 ++
      ((drainPass fuel h reg
        (sweepPass fuel h reg (buildPass fuel h reg).ref_state)).2.1.collection_queue.map
        fun pl => Ev.dealloc pl.1 pl.2) := rfl
  constructor
  · rw [hevents_eq, hsweep, List.count_append, hDev i, hone,
      List.count_eq_zero.2 (by simp)]
  · rw [hqueue_eq, hsweep, hDq i, hone]

/-- Witness for C4 at a concrete input: the fully registered two-cycle of
allocations 5 and 7 is reclaimed, with allocation 5 destroyed and
deallocated exactly once. -/
theorem claim_C4_witness :
    (collectAll 10 sccWitnessHeap ⟨[5, 7], 0, 0⟩).events.count (Ev.destruct 5) = 1 ∧
    ((collectAll 10 sccWitnessHeap ⟨[5, 7], 0, 0⟩).queue.map
      fun e => ptrId e.1).count 5 = 1 :=
  claim_C4_dead_scc_reclaimed sccWitnessHeap [5, 7] 10 0 0 (by decide) (by decide)
    (by decide) (by decide) (by decide) (by decide) (by decide) (by decide)
    (by decide) (by decide) 5 (by decide)
